import Mathlib

/-!
A shallow embedding of the dependency-graph core of `snapcraft/yaml.py`
(`Config.__init__`, `Config._sort_parts`, `Config.runtime_env`,
`Config.build_env`, `Config.build_env_for_part`).

Python parts are mutable objects compared by identity; part names are unique
(declared parts come from a dict keyed by name, auto-loaded parts are only
added when no loaded part already carries the name), so parts are modelled by
value and dependency references (`part.deps` entries) by the referenced
part's name.
-/

namespace Snapcraft

/-- Modelled from the spec: the `Part`-like object produced by the external
plugin-loading collaborator `snapcraft.plugin.load_plugin` (that module is not
part of this core).  Per the spec, the loader yields an object exposing
`config` (through which the `requires` list passed in the properties mapping
is read back) and `names()` returning the part's name; `properties` records
the plugin-specific property mapping handed to the loader (with `plugin` and
`after` already stripped by `Config.__init__`, `requires` kept separate here).
`deps` is the resolved dependency list, filled during edge attachment. -/
structure Part where
  name : String
  pluginName : String
  properties : List (String × String)
  requires : List String
  deps : List String
deriving DecidableEq

/-- Modelled from the spec: `part.names()` — the list of names a loaded part
answers to; the first entry is the part's own name. -/
def names (p : Part) : List String := [p.name]

/-- One entry of the validated configuration's `parts` section:
`self.data["parts"][part_name]` with its recognised keys split out
(`None` properties already normalised to an empty mapping, an absent
`after`/`requires` key normalised to `[]`, which is indistinguishable from an
explicitly empty list to every consumer in the source). -/
structure InputPart where
  name : String
  plugin : Option String
  after : List String
  requires : List String
  other : List (String × String)
deriving DecidableEq

/-- The part auto-loaded for a required name that is not yet present:
`self.load_plugin(requiredPart, requiredPart, {})`. -/
def autoPart (n : String) : Part :=
  { name := n, pluginName := n, properties := [], requires := [], deps := [] }

/-- Loading of one declared part: `plugin_name = properties.get("plugin",
part_name)` and the `plugin` / `after` keys stripped from the properties
handed to the loader. -/
def declaredPart (ip : InputPart) : Part :=
  { name := ip.name, pluginName := ip.plugin.getD ip.name,
    properties := ip.other, requires := ip.requires, deps := [] }

/-- First phase of `Config.__init__`: load every declared part in order. -/
def loadDeclared (input : List InputPart) : List Part :=
  input.map declaredPart

/-- The transient `afterRequests` mapping: part name to its `after` list. -/
def afterRequests (input : List InputPart) : List (String × List String) :=
  input.map (fun ip => (ip.name, ip.after))

/-- `afterRequests.get(name, [])`. -/
def getAfter (ar : List (String × List String)) (n : String) : List String :=
  match ar.find? (fun e => e.1 == n) with
  | some e => e.2
  | none => []

/-- The `alreadyPresent` scan: some loaded part answers to name `n`. -/
def isPresent (allParts : List Part) (n : String) : Bool :=
  allParts.any (fun p => (names p).contains n)

/-- Inner loop of the dependency-closure phase: for each required name not
already present, auto-load it (appending to `all_parts`) and collect it for
the worklist (`newParts.append(...)`).  Returns the grown `all_parts` and the
newly loaded parts. -/
def addRequired : List Part → List Part → List String → List Part × List Part
  | allParts, newAcc, [] => (allParts, newAcc)
  | allParts, newAcc, r :: rs =>
    if isPresent allParts r then addRequired allParts newAcc rs
    else addRequired (allParts ++ [autoPart r]) (newAcc ++ [autoPart r]) rs

/-- Weight of a worklist: auto-loaded parts carry empty `requires`, so this
measure shrinks at every iteration of `expand`. -/
def reqSizes (w : List Part) : Nat :=
  (w.map (fun p => p.requires.length)).sum

/-- The dependency-closure loop of `Config.__init__` (`newParts = all_parts.copy();
while newParts: ...`): pop a part from the worklist, auto-load every required
name not already present, and push the freshly loaded parts onto the worklist.
It terminates because freshly loaded parts carry empty `requires` lists. -/
def expand (allParts : List Part) (worklist : List Part) : List Part :=
  match worklist with
  | [] => allParts
  | part :: rest =>
    let res := addRequired allParts [] part.requires
    expand res.1 (rest ++ res.2)
termination_by worklist.length + 2 * reqSizes worklist
decreasing_by
  have key : ∀ (rs : List String) (a acc : List Part),
      (addRequired a acc rs).2.length + 2 * reqSizes (addRequired a acc rs).2 ≤
        acc.length + 2 * reqSizes acc + rs.length := by
    intro rs
    induction rs with
    | nil => intro _a acc; simp [addRequired]
    | cons r rs ih =>
      intro a acc
      simp only [addRequired]
      by_cases h : isPresent a r = true
      · rw [if_pos h]
        have := ih a acc
        simp only [List.length_cons]
        omega
      · rw [if_neg h]
        have := ih (a ++ [autoPart r]) (acc ++ [autoPart r])
        have hlen : (acc ++ [autoPart r]).length = acc.length + 1 := by simp
        have hreq : reqSizes (acc ++ [autoPart r]) = reqSizes acc := by
          simp [reqSizes, autoPart]
        simp only [List.length_cons]
        omega
  have hk := key part.requires allParts []
  have h1 : (rest ++ (addRequired allParts [] part.requires).2).length =
      rest.length + (addRequired allParts [] part.requires).2.length := by simp
  have h2 : reqSizes (rest ++ (addRequired allParts [] part.requires).2) =
      reqSizes rest + reqSizes (addRequired allParts [] part.requires).2 := by
    simp [reqSizes]
  have h3 : reqSizes (part :: rest) = part.requires.length + reqSizes rest := by
    simp [reqSizes]
  have hnil : reqSizes ([] : List Part) = 0 := by simp [reqSizes]
  simp only [List.length_nil, hnil] at hk
  simp only [List.length_cons]
  omega

/-- `dep in self.all_parts[i].names()` search of edge attachment. -/
def findByName (allParts : List Part) (dep : String) : Option Part :=
  allParts.find? (fun p => (names p).contains dep)

/-- Resolution of one part's `depNames` during edge attachment: each name is
looked up among all loaded parts and the found part appended to `deps`
(recorded by name); an unfound name is the `sys.exit(1)` path, modelled as
`none`. -/
def resolveDeps (allParts : List Part) : List String → Option (List String)
  | [] => some []
  | d :: ds =>
    match findByName allParts d with
    | none => none
    | some p =>
      match resolveDeps allParts ds with
      | none => none
      | some rest => some (p.name :: rest)

/-- Edge-attachment phase of `Config.__init__`: for every part,
`depNames = part.config.get('requires', []) + afterRequests.get(part.names()[0], [])`
is resolved into `part.deps`. -/
def attachDeps (allParts : List Part) (ar : List (String × List String)) :
    List Part → Option (List Part)
  | [] => some []
  | part :: rest =>
    match resolveDeps allParts (part.requires ++ getAfter ar part.name) with
    | none => none
    | some ds =>
      match attachDeps allParts ar rest with
      | none => none
      | some others => some ({ part with deps := ds } :: others)

/-- The `mentioned` scan of `Config._sort_parts`: some remaining part lists
`part` among its dependencies. -/
def mentioned (parts : List Part) (part : Part) : Bool :=
  parts.any (fun other => other.deps.contains part.name)

/-- One outer scan of `Config._sort_parts`: the first remaining part not
mentioned as a dependency of any remaining part. -/
def findTopPart (parts : List Part) : Option Part :=
  parts.find? (fun part => ! mentioned parts part)

inductive SortResult where
  | outOfFuel
  | circular
  | sorted (l : List Part)
deriving DecidableEq

/-- The `while self.all_parts:` loop of `Config._sort_parts`, with an explicit
iteration budget: each iteration either prepends an unmentioned part to the
accumulator (`sorted_parts = [top_part] + sorted_parts`; remove it from the
remaining set) or raises `SnapcraftLogicError` (`.circular`).  `.outOfFuel` is
the budget running out; `sort_parts_fuel_adequate` below shows a budget of one
iteration per part never runs out, matching the unbounded source loop. -/
def sortPartsFuel : Nat → List Part → List Part → SortResult
  | _, [], acc => .sorted acc
  | 0, _ :: _, _ => .outOfFuel
  | fuel + 1, part :: rest, acc =>
    match findTopPart (part :: rest) with
    | none => .circular
    | some top => sortPartsFuel fuel ((part :: rest).erase top) (top :: acc)

/-- `Config._sort_parts` on a given `all_parts` list. -/
def sort_parts (parts : List Part) : SortResult :=
  sortPartsFuel parts.length parts []

inductive BuildResult where
  | unresolvedDep
  | circular
  | ok (parts : List Part)
deriving DecidableEq

/-- The whole of `Config.__init__` past schema validation: load declared
parts, expand the dependency closure, attach edges (`sys.exit(1)` on an
unresolved name → `.unresolvedDep`), and topologically sort
(`SnapcraftLogicError` → `.circular`). -/
def buildConfig (input : List InputPart) : BuildResult :=
  let declared := loadDeclared input
  let allParts := expand declared declared
  match attachDeps allParts (afterRequests input) allParts with
  | none => .unresolvedDep
  | some withDeps =>
    match sort_parts withDeps with
    | .sorted l => .ok l
    | .circular => .circular
    | .outOfFuel => .circular

/-- `Config.runtime_env(root)`: the two assignment strings, `PATH` then
`LD_LIBRARY_PATH`, with `arch` the architecture triplet obtained from the
`snapcraft.common.get_arch_triplet()` collaborator. -/
def runtime_env (root : String) (arch : String) : List String :=
  ["PATH=\"" ++ root ++ "/bin:" ++ root ++ "/usr/bin:$PATH\"",
   "LD_LIBRARY_PATH=\"" ++ root ++ "/lib:" ++ root ++ "/usr/lib:" ++ root ++ "/lib/" ++
     arch ++ ":" ++ root ++ "/usr/lib/" ++ arch ++ ":$LD_LIBRARY_PATH\""]

/-- `Config.build_env(root)`: `CFLAGS` then `LDFLAGS`. -/
def build_env (root : String) (arch : String) : List String :=
  ["CFLAGS=\"-I" ++ root ++ "/include -I" ++ root ++ "/usr/include -I" ++ root ++
     "/include/" ++ arch ++ " -I" ++ root ++ "/usr/include/" ++ arch ++ " $CFLAGS\"",
   "LDFLAGS=\"-L" ++ root ++ "/lib -L" ++ root ++ "/usr/lib -L" ++ root ++ "/lib/" ++
     arch ++ " -L" ++ root ++ "/usr/lib/" ++ arch ++ " $LDFLAGS\""]

/-- `Config.build_env_for_part(part)`: for each dependency (a name here,
dereferenced through `findByName`; in the source `deps` holds the part objects
directly, so the `none` branch is unreachable), emit its runtime env, build
env, and own `env(root)` contribution (`envOf`, a plugin collaborator), then
recurse into its dependencies.  `installDirOf` models the `installdir`
attribute.  The source recursion is unbounded (it would not return on a
cyclic graph); the explicit `fuel` models the call stack, and any fuel
exceeding the dependency depth computes the source's value. -/
def build_env_for_part (allParts : List Part) (installDirOf : String → String)
    (envOf : String → String → List String) (arch : String) :
    Nat → Part → List String
  | 0, _ => []
  | fuel + 1, part =>
    (part.deps.map (fun depName =>
      match findByName allParts depName with
      | none => []
      | some dep =>
        let root := installDirOf dep.name
        runtime_env root arch ++ build_env root arch ++ envOf dep.name root ++
          build_env_for_part allParts installDirOf envOf arch fuel dep)).flatten

/-- The dependency relation induced by a list of parts: `a` depends on `b`
when a part named `a` lists `b` among its dependencies. -/
def depRel (parts : List Part) (a b : String) : Prop :=
  ∃ p, p ∈ parts ∧ p.name = a ∧ b ∈ p.deps

/-- A cycle in the dependency relation: a nonempty dependency chain from some
name back to itself (length one — a self-reference — included). -/
def hasCycle (parts : List Part) : Prop :=
  ∃ a, Relation.TransGen (depRel parts) a a

/-- The spec's ordering contract for the sorted sequence: every dependency
appears at a strictly smaller index than each of its dependents. -/
def Ordered (l : List Part) : Prop :=
  ∀ i j (hi : i < l.length) (hj : j < l.length),
    (l.get ⟨j, hj⟩).name ∈ (l.get ⟨i, hi⟩).deps → j < i

/-! Demonstration inputs used by witnesses and counterexamples. -/

/-- Two parts forming a two-cycle, as after edge attachment. -/
def cycPA : Part := { name := "A", pluginName := "A", properties := [], requires := ["B"], deps := ["B"] }

/-- See `cycPA`. -/
def cycPB : Part := { name := "B", pluginName := "B", properties := [], requires := ["A"], deps := ["A"] }

/-- An acyclic two-part graph, as after edge attachment: `a` depends on `b`. -/
def acyPA : Part := { name := "a", pluginName := "a", properties := [], requires := ["b"], deps := ["b"] }

/-- See `acyPA`. -/
def acyPB : Part := { name := "b", pluginName := "b", properties := [], requires := [], deps := [] }

/-- Input whose part `a` names `b` both in `requires` and in `after`. -/
def inReqAfter : List InputPart :=
  [{ name := "a", plugin := none, after := ["b"], requires := ["b"], other := [] },
   { name := "b", plugin := none, after := [], requires := [], other := [] }]

/-- Input whose sole part requires itself. -/
def inSelf : List InputPart :=
  [{ name := "a", plugin := none, after := [], requires := ["a"], other := [] }]

/-- Input declaring part `x` requiring an undeclared part `foo`. -/
def inAuto : List InputPart :=
  [{ name := "x", plugin := none, after := [], requires := ["foo"], other := [] }]

/-- Input whose sole part names the missing `b` only in `after`. -/
def inAfterOnly : List InputPart :=
  [{ name := "a", plugin := none, after := ["b"], requires := [], other := [] }]

/-- Diamond dependency shape: `p` depends on `a` and `b`, each of which
depends on `c`. -/
def diaP : Part := { name := "p", pluginName := "p", properties := [], requires := ["a", "b"], deps := ["a", "b"] }

/-- See `diaP`. -/
def diaA : Part := { name := "a", pluginName := "a", properties := [], requires := ["c"], deps := ["c"] }

/-- See `diaP`. -/
def diaB : Part := { name := "b", pluginName := "b", properties := [], requires := ["c"], deps := ["c"] }

/-- See `diaP`. -/
def diaC : Part := { name := "c", pluginName := "c", properties := [], requires := [], deps := [] }

/-- The diamond graph. -/
def diamond : List Part := [diaP, diaA, diaB, diaC]

/-- The part `a` of `inReqAfter` after edge attachment: its `requires` entry
`b` and its `after` entry `b` are both resolved, so `deps` holds `b` twice. -/
def raPA : Part := { name := "a", pluginName := "a", properties := [], requires := ["b"], deps := ["b", "b"] }

/-- The part `b` of `inReqAfter` after edge attachment. -/
def raPB : Part := { name := "b", pluginName := "b", properties := [], requires := [], deps := [] }

/-! Facts about `Config._sort_parts`. -/

theorem sortPartsFuel_nil (fuel : Nat) (acc : List Part) :
    sortPartsFuel fuel [] acc = .sorted acc := by
  cases fuel <;> rfl

theorem mentioned_eq_false {parts : List Part} {p : Part} (h : mentioned parts p = false) :
    ∀ o ∈ parts, p.name ∉ o.deps := by
  intro o ho hmem
  have : parts.any (fun other => other.deps.contains p.name) = true :=
    List.any_eq_true.2 ⟨o, ho, by simpa [List.elem_iff] using hmem⟩
  rw [mentioned] at h
  rw [h] at this
  exact Bool.false_ne_true this

theorem findTopPart_some {parts : List Part} {top : Part}
    (h : findTopPart parts = some top) :
    top ∈ parts ∧ ∀ o ∈ parts, top.name ∉ o.deps := by
  refine ⟨List.mem_of_find?_eq_some h, ?_⟩
  have hp := List.find?_some h
  have : mentioned parts top = false := by
    cases hm : mentioned parts top
    · rfl
    · rw [hm] at hp; exact absurd hp (by simp)
  exact mentioned_eq_false this

theorem findTopPart_none {parts : List Part} (h : findTopPart parts = none) :
    ∀ p ∈ parts, ∃ o ∈ parts, p.name ∈ o.deps := by
  intro p hp
  have hnp := List.find?_eq_none.1 h p hp
  have hm : mentioned parts p = true := by
    cases hm : mentioned parts p
    · rw [hm] at hnp; simp at hnp
    · rfl
  obtain ⟨o, ho, hdep⟩ := List.any_eq_true.1 hm
  exact ⟨o, ho, by simpa [List.elem_iff] using hdep⟩

theorem sortPartsFuel_ne_outOfFuel :
    ∀ (fuel : Nat) (rem acc : List Part), rem.length ≤ fuel →
      sortPartsFuel fuel rem acc ≠ .outOfFuel := by
  intro fuel
  induction fuel with
  | zero =>
    intro rem acc hlen
    match rem with
    | [] => rw [sortPartsFuel_nil]; simp
    | p :: r => simp at hlen
  | succ fuel ih =>
    intro rem acc hlen
    match rem with
    | [] => rw [sortPartsFuel_nil]; simp
    | p :: r =>
      show sortPartsFuel (fuel + 1) (p :: r) acc ≠ .outOfFuel
      rw [sortPartsFuel]
      cases hft : findTopPart (p :: r) with
      | none => simp
      | some top =>
        simp only
        have htop := (findTopPart_some hft).1
        have : ((p :: r).erase top).length ≤ fuel := by
          rw [List.length_erase_of_mem htop]
          simp only [List.length_cons] at hlen ⊢
          omega
        exact ih _ _ this

theorem sortPartsFuel_perm :
    ∀ (fuel : Nat) (rem acc l : List Part),
      sortPartsFuel fuel rem acc = .sorted l → l.Perm (rem ++ acc) := by
  intro fuel
  induction fuel with
  | zero =>
    intro rem acc l h
    match rem with
    | [] =>
      rw [sortPartsFuel_nil] at h
      cases h
      simp
    | p :: r => exact absurd h (by rw [sortPartsFuel]; simp)
  | succ fuel ih =>
    intro rem acc l h
    match rem with
    | [] =>
      rw [sortPartsFuel_nil] at h
      cases h
      simp
    | p :: r =>
      rw [sortPartsFuel] at h
      cases hft : findTopPart (p :: r) with
      | none => rw [hft] at h; exact absurd h (by simp)
      | some top =>
        rw [hft] at h
        simp only at h
        have htop := (findTopPart_some hft).1
        have hrec := ih _ _ _ h
        have h1 : ((p :: r).erase top ++ top :: acc).Perm (top :: ((p :: r).erase top ++ acc)) :=
          List.perm_middle
        have h2 : (p :: r).Perm (top :: (p :: r).erase top) := List.perm_cons_erase htop
        have h3 : ((p :: r) ++ acc).Perm ((top :: (p :: r).erase top) ++ acc) :=
          h2.append_right acc
        exact (hrec.trans h1).trans (h3.trans (by simp)).symm

theorem sortPartsFuel_ordered :
    ∀ (fuel : Nat) (rem acc l : List Part),
      sortPartsFuel fuel rem acc = .sorted l →
      Ordered acc → (∀ p ∈ rem, ∀ q ∈ acc, q.name ∉ p.deps) → Ordered l := by
  intro fuel
  induction fuel with
  | zero =>
    intro rem acc l h hacc hsep
    match rem with
    | [] => rw [sortPartsFuel_nil] at h; cases h; exact hacc
    | p :: r => exact absurd h (by rw [sortPartsFuel]; simp)
  | succ fuel ih =>
    intro rem acc l h hacc hsep
    match rem with
    | [] => rw [sortPartsFuel_nil] at h; cases h; exact hacc
    | p :: r =>
      rw [sortPartsFuel] at h
      cases hft : findTopPart (p :: r) with
      | none => rw [hft] at h; exact absurd h (by simp)
      | some top =>
        rw [hft] at h
        simp only at h
        obtain ⟨htop, hunm⟩ := findTopPart_some hft
        refine ih _ _ _ h ?_ ?_
        · intro i j hi hj hmem
          match i, j with
          | 0, 0 =>
            exact absurd (by simpa using hmem) (hunm top htop)
          | 0, Nat.succ j =>
            simp only [List.length_cons] at hj
            have hq : (top :: acc).get ⟨j + 1, by simpa using hj⟩ ∈ acc := by
              simp only [List.get_cons_succ]
              exact List.get_mem _ _ _
            exact absurd (by simpa using hmem) (hsep top htop _ hq)
          | Nat.succ i, 0 => exact Nat.succ_pos i
          | Nat.succ i, Nat.succ j =>
            simp only [List.length_cons] at hi hj
            have := hacc i j (by omega) (by omega) (by simpa using hmem)
            omega
        · intro q hq q' hq'
          have hqrem : q ∈ p :: r := List.mem_of_mem_erase hq
          rcases List.mem_cons.1 hq' with hq' | hq'
          · subst hq'
            exact hunm q hqrem
          · exact hsep q hqrem q' hq'

theorem depRel_mono {rem parts : List Part} (hsub : rem ⊆ parts) {a b : String}
    (h : depRel rem a b) : depRel parts a b := by
  obtain ⟨p, hp, hn, hd⟩ := h
  exact ⟨p, hsub hp, hn, hd⟩

theorem hasCycle_mono {rem parts : List Part} (hsub : rem ⊆ parts)
    (h : hasCycle rem) : hasCycle parts := by
  obtain ⟨a, ha⟩ := h
  exact ⟨a, ha.mono (fun x y => depRel_mono hsub)⟩

theorem no_top_hasCycle {rem : List Part} (hne : rem ≠ [])
    (h : ∀ p ∈ rem, ∃ o ∈ rem, p.name ∈ o.deps) : hasCycle rem := by
  classical
  obtain ⟨p0, hp0⟩ := List.exists_mem_of_ne_nil rem hne
  -- A choice function following the "mentioned by" relation backwards.
  let F : Part → Part := fun p =>
    if hp : ∃ o ∈ rem, p.name ∈ o.deps then hp.choose else p
  have hF : ∀ p ∈ rem, F p ∈ rem ∧ p.name ∈ (F p).deps := by
    intro p hp
    have hex := h p hp
    have : F p = hex.choose := dif_pos hex
    rw [this]
    exact ⟨hex.choose_spec.1, hex.choose_spec.2⟩
  have hmemseq : ∀ n, F^[n] p0 ∈ rem := by
    intro n
    induction n with
    | zero => exact hp0
    | succ n ihn =>
      rw [Function.iterate_succ_apply']
      exact (hF _ ihn).1
  have hedge : ∀ n, depRel rem (F^[n + 1] p0).name (F^[n] p0).name := by
    intro n
    rw [Function.iterate_succ_apply']
    exact ⟨F (F^[n] p0), (hF _ (hmemseq n)).1, rfl, (hF _ (hmemseq n)).2⟩
  have hchain : ∀ m n, Relation.TransGen (depRel rem) (F^[n + m + 1] p0).name (F^[n] p0).name := by
    intro m
    induction m with
    | zero => intro n; exact Relation.TransGen.single (hedge n)
    | succ m ihm =>
      intro n
      have he : depRel rem (F^[n + (m + 1) + 1] p0).name (F^[n + m + 1] p0).name := by
        have := hedge (n + m + 1)
        simpa [Nat.add_assoc, Nat.add_comm, Nat.add_left_comm] using this
      exact Relation.TransGen.head he (ihm n)
  -- Pigeonhole: two indices below `rem.length + 1` reach the same part.
  have hlen : 0 < rem.length := List.length_pos.2 hne
  let g : Fin (rem.length + 1) → Fin rem.length := fun i =>
    ⟨rem.indexOf (F^[i.1] p0), List.indexOf_lt_length.2 (hmemseq i.1)⟩
  obtain ⟨i, j, hij, hgeq⟩ := Fintype.exists_ne_map_eq_of_card_lt g (by simp)
  have heq : F^[i.1] p0 = F^[j.1] p0 := by
    have hidx : rem.indexOf (F^[i.1] p0) = rem.indexOf (F^[j.1] p0) :=
      congrArg Fin.val hgeq
    exact (List.indexOf_inj (hmemseq i.1) (hmemseq j.1)).1 hidx
  rcases Nat.lt_or_ge i.1 j.1 with hlt | hge
  · refine ⟨(F^[i.1] p0).name, ?_⟩
    have := hchain (j.1 - i.1 - 1) i.1
    have harith : i.1 + (j.1 - i.1 - 1) + 1 = j.1 := by omega
    rw [harith] at this
    rw [← heq] at this
    exact this
  · have hlt : j.1 < i.1 := by
      rcases Nat.lt_or_ge j.1 i.1 with h' | h'
      · exact h'
      · exact absurd (Fin.ext (Nat.le_antisymm h' hge)) hij
    refine ⟨(F^[j.1] p0).name, ?_⟩
    have := hchain (i.1 - j.1 - 1) j.1
    have harith : j.1 + (i.1 - j.1 - 1) + 1 = i.1 := by omega
    rw [harith] at this
    rw [heq] at this
    exact this

theorem sortPartsFuel_circular_hasCycle :
    ∀ (fuel : Nat) (rem acc : List Part),
      sortPartsFuel fuel rem acc = .circular → hasCycle rem := by
  intro fuel
  induction fuel with
  | zero =>
    intro rem acc h
    match rem with
    | [] => rw [sortPartsFuel_nil] at h; exact absurd h (by simp)
    | p :: r => exact absurd h (by rw [sortPartsFuel]; simp)
  | succ fuel ih =>
    intro rem acc h
    match rem with
    | [] => rw [sortPartsFuel_nil] at h; exact absurd h (by simp)
    | p :: r =>
      rw [sortPartsFuel] at h
      cases hft : findTopPart (p :: r) with
      | none =>
        exact no_top_hasCycle (by simp) (findTopPart_none hft)
      | some top =>
        rw [hft] at h
        simp only at h
        exact hasCycle_mono (List.erase_subset _ _) (ih _ _ h)

theorem sortPartsFuel_stuck (C : String → Prop) :
    ∀ (fuel : Nat) (rem acc : List Part), rem.length ≤ fuel →
      (∃ x, C x) →
      (∀ x, C x → ∃ p ∈ rem, C p.name ∧ x ∈ p.deps) →
      sortPartsFuel fuel rem acc = .circular := by
  intro fuel
  induction fuel with
  | zero =>
    intro rem acc hlen hne hinv
    obtain ⟨x, hx⟩ := hne
    obtain ⟨p, hp, -, -⟩ := hinv x hx
    match rem with
    | [] => exact absurd hp (List.not_mem_nil p)
    | q :: r => simp at hlen
  | succ fuel ih =>
    intro rem acc hlen hne hinv
    match rem with
    | [] =>
      obtain ⟨x, hx⟩ := hne
      obtain ⟨p, hp, -, -⟩ := hinv x hx
      exact absurd hp (List.not_mem_nil p)
    | p :: r =>
      rw [sortPartsFuel]
      cases hft : findTopPart (p :: r) with
      | none => rfl
      | some top =>
        simp only
        obtain ⟨htop, hunm⟩ := findTopPart_some hft
        have htopC : ¬ C top.name := by
          intro hC
          obtain ⟨q, hq, -, hdep⟩ := hinv top.name hC
          exact hunm q hq hdep
        refine ih _ _ ?_ hne ?_
        · rw [List.length_erase_of_mem htop]
          simp only [List.length_cons] at hlen ⊢
          omega
        · intro x hx
          obtain ⟨q, hq, hqC, hdep⟩ := hinv x hx
          have hqne : q ≠ top := by
            intro hqe
            exact htopC (hqe ▸ hqC)
          exact ⟨q, (List.mem_erase_of_ne hqne).2 hq, hqC, hdep⟩


theorem ordered_no_self {l : List Part} (h : Ordered l) : ∀ p ∈ l, p.name ∉ p.deps := by
  intro p hp hmem
  obtain ⟨⟨i, hi⟩, hget⟩ := List.mem_iff_get.1 hp
  have := h i i hi hi (by rw [hget]; exact hmem)
  omega

theorem ordered_nil : Ordered [] := by
  intro i j hi hj
  simp at hi

/-- C1: on any acyclic dependency graph `Config._sort_parts` returns a
sequence in which every dependency sits at a strictly smaller index than each
of its dependents. -/
theorem sort_parts_ordered_of_acyclic (parts : List Part) (h : ¬ hasCycle parts) :
    ∃ l, sort_parts parts = .sorted l ∧ Ordered l := by
  cases hr : sort_parts parts with
  | outOfFuel => exact absurd hr (sortPartsFuel_ne_outOfFuel _ _ _ le_rfl)
  | circular => exact absurd (sortPartsFuel_circular_hasCycle _ _ _ hr) h
  | sorted l =>
    refine ⟨l, rfl, ?_⟩
    exact sortPartsFuel_ordered _ _ _ _ hr ordered_nil
      (fun p _ q hq => absurd hq (List.not_mem_nil q))

/-- Witness for C1 on the concrete acyclic graph `a → b`. -/
theorem sort_parts_ordered_of_acyclic_witness :
    ∃ l, sort_parts [acyPA, acyPB] = .sorted l ∧ Ordered l := by
  apply sort_parts_ordered_of_acyclic
  intro hcyc
  obtain ⟨a, h⟩ := hcyc
  have hedge : ∀ x y, depRel [acyPA, acyPB] x y → x = "a" ∧ y = "b" := by
    rintro x y ⟨p, hp, hn, hd⟩
    rcases List.mem_cons.1 hp with hp | hp
    · subst hp
      refine ⟨hn.symm, ?_⟩
      have : y ∈ ["b"] := hd
      simpa using this
    · have hp : p = acyPB := by simpa using hp
      subst hp
      exact absurd hd (List.not_mem_nil y)
  obtain ⟨b, hba, hfin⟩ := Relation.TransGen.tail'_iff.1 h
  obtain ⟨hb, ha⟩ := hedge b a hfin
  subst hb
  subst ha
  obtain ⟨c, hfirst, -⟩ := Relation.TransGen.head'_iff.1 h
  have := (hedge _ c hfirst).1
  simp at this

/-- C2: any cycle in the dependency relation makes `Config._sort_parts`
raise `SnapcraftLogicError` (circular dependency) instead of returning a
sorted sequence. -/
theorem sort_parts_circular_of_cycle (parts : List Part) (h : hasCycle parts) :
    sort_parts parts = .circular := by
  obtain ⟨a, ha⟩ := h
  exact sortPartsFuel_stuck
    (fun x => Relation.TransGen (depRel parts) a x ∧ Relation.TransGen (depRel parts) x a)
    parts.length parts [] le_rfl ⟨a, ha, ha⟩
    (by
      rintro x ⟨hax, hxa⟩
      obtain ⟨y, hay, hyx⟩ := Relation.TransGen.tail'_iff.1 hax
      obtain ⟨p, hp, hn, hd⟩ := hyx
      refine ⟨p, hp, ⟨?_, ?_⟩, hd⟩
      · rw [hn]
        exact Relation.TransGen.trans_left ha hay
      · rw [hn]
        exact Relation.TransGen.head ⟨p, hp, hn, hd⟩ hxa)

/-- Witness for C2 on the two-cycle `A ↔ B`. -/
theorem sort_parts_circular_of_cycle_witness :
    sort_parts [cycPA, cycPB] = .circular := by
  apply sort_parts_circular_of_cycle
  have e1 : depRel [cycPA, cycPB] ("A") ("B") := ⟨cycPA, by simp, rfl, by simp [cycPA]⟩
  have e2 : depRel [cycPA, cycPB] ("B") ("A") := ⟨cycPB, by simp, rfl, by simp [cycPB]⟩
  exact ⟨"A", Relation.TransGen.head e1 (Relation.TransGen.single e2)⟩

/-- C8: with a budget of one outer iteration per part, `Config._sort_parts`
never exhausts its budget — each iteration removes exactly one part from the
remaining set or aborts, so the sort completes in at most `n` outer
iterations for `n` parts. -/
theorem sort_parts_terminates (parts acc : List Part) :
    sortPartsFuel parts.length parts acc ≠ .outOfFuel :=
  sortPartsFuel_ne_outOfFuel _ _ _ le_rfl

/-- C10: a successful `Config._sort_parts` run returns a permutation of its
input — no part is lost or duplicated. -/
theorem sort_parts_perm (parts l : List Part) (h : sort_parts parts = .sorted l) :
    l.Perm parts := by
  have := sortPartsFuel_perm _ _ _ _ h
  simpa using this

/-- Witness for C10 on the concrete acyclic graph `a → b`. -/
theorem sort_parts_perm_witness : List.Perm [acyPB, acyPA] [acyPA, acyPB] :=
  sort_parts_perm [acyPA, acyPB] [acyPB, acyPA] (by decide)

/-- C9 counterexample: on the input whose sole part `a` declares
`requires: ["a"]`, edge attachment produces a `deps` list that references the
part itself. -/
theorem deps_self_reference_counterexample :
    ∃ l, attachDeps (expand (loadDeclared inSelf) (loadDeclared inSelf))
        (afterRequests inSelf) (expand (loadDeclared inSelf) (loadDeclared inSelf)) = some l ∧
      ∃ p ∈ l, p.name ∈ p.deps := by
  have hexp : expand (loadDeclared inSelf) (loadDeclared inSelf) = loadDeclared inSelf := by
    simp [expand, addRequired, isPresent, names, loadDeclared, declaredPart, inSelf]
  rw [hexp]
  refine ⟨[{ name := "a", pluginName := "a", properties := [], requires := ["a"], deps := ["a"] }],
    by decide, ?_⟩
  decide

/-- C9 (amended): a self-reference can appear in `deps` during edge
attachment (see the counterexample), but any `Config` whose construction
completes has no part whose `deps` mentions the part itself — a self-reference
makes the sort abort instead. -/
theorem constructed_deps_no_self_reference (input : List InputPart) (l : List Part)
    (h : buildConfig input = .ok l) : ∀ p ∈ l, p.name ∉ p.deps := by
  simp only [buildConfig] at h
  split at h
  · cases h
  · rename_i withDeps hat
    split at h
    · rename_i l' hsort
      cases h
      exact ordered_no_self
        (sortPartsFuel_ordered _ _ _ _ hsort ordered_nil
          (fun p _ q hq => absurd hq (List.not_mem_nil q)))
    · cases h
    · cases h

/-- Witness for the amended C9 on `inReqAfter`. -/
theorem constructed_deps_no_self_reference_witness :
    raPB.name ∉ raPB.deps ∧ raPA.name ∉ raPA.deps := by
  have hok : buildConfig inReqAfter = .ok [raPB, raPA] := by
    have hexp : expand (loadDeclared inReqAfter) (loadDeclared inReqAfter) =
        loadDeclared inReqAfter := by
      simp [expand, addRequired, isPresent, names, loadDeclared, declaredPart, inReqAfter]
    simp only [buildConfig, hexp]
    decide
  have h := constructed_deps_no_self_reference inReqAfter [raPB, raPA] hok
  exact ⟨h raPB (by simp), h raPA (by simp)⟩

/-! Facts about graph construction (`Config.__init__`). -/

theorem isPresent_append (a b : List Part) (n : String) :
    isPresent (a ++ b) n = (isPresent a n || isPresent b n) := by
  simp [isPresent, List.any_append]

theorem isPresent_iff {a : List Part} {n : String} :
    isPresent a n = true ↔ ∃ p ∈ a, p.name = n := by
  constructor
  · intro h
    obtain ⟨p, hp, hc⟩ := List.any_eq_true.1 h
    refine ⟨p, hp, ?_⟩
    have hx : n ∈ names p := List.elem_iff.1 hc
    have hn : n = p.name := by simpa [names] using hx
    exact hn.symm
  · rintro ⟨p, hp, hn⟩
    refine List.any_eq_true.2 ⟨p, hp, ?_⟩
    subst hn
    simp [names, List.elem_iff]

theorem addRequired_full (rs : List String) : ∀ allParts newAcc,
    ∃ new : List Part,
      (addRequired allParts newAcc rs).1 = allParts ++ new ∧
      (addRequired allParts newAcc rs).2 = newAcc ++ new ∧
      ∀ p ∈ new, p = autoPart p.name ∧ isPresent allParts p.name = false ∧ p.name ∈ rs := by
  induction rs with
  | nil =>
    intro allParts newAcc
    exact ⟨[], by simp [addRequired]⟩
  | cons r rs ih =>
    intro allParts newAcc
    by_cases h : isPresent allParts r = true
    · obtain ⟨new, h1, h2, h3⟩ := ih allParts newAcc
      have hstep : addRequired allParts newAcc (r :: rs) = addRequired allParts newAcc rs := by
        simp [addRequired, h]
      refine ⟨new, by rw [hstep, h1], by rw [hstep, h2], ?_⟩
      intro p hp
      obtain ⟨hauto, hpres, hmem⟩ := h3 p hp
      exact ⟨hauto, hpres, List.mem_cons_of_mem _ hmem⟩
    · obtain ⟨new, h1, h2, h3⟩ := ih (allParts ++ [autoPart r]) (newAcc ++ [autoPart r])
      have hstep : addRequired allParts newAcc (r :: rs) =
          addRequired (allParts ++ [autoPart r]) (newAcc ++ [autoPart r]) rs := by
        simp [addRequired, h]
      refine ⟨autoPart r :: new, ?_, ?_, ?_⟩
      · rw [hstep, h1]; simp
      · rw [hstep, h2]; simp
      · intro p hp
        rcases List.mem_cons.1 hp with hp | hp
        · subst hp
          refine ⟨rfl, ?_, by simp [autoPart]⟩
          simpa [autoPart] using Bool.of_not_eq_true h
        · obtain ⟨hauto, hpres, hmem⟩ := h3 p hp
          rw [isPresent_append] at hpres
          exact ⟨hauto, by simpa using (Bool.or_eq_false_iff.1 hpres).1,
            List.mem_cons_of_mem _ hmem⟩

theorem expand_spec : ∀ (allParts worklist : List Part),
    ∃ s : List Part, expand allParts worklist = allParts ++ s ∧
      ∀ p ∈ s, p = autoPart p.name ∧ isPresent allParts p.name = false ∧
        ∃ q ∈ worklist, p.name ∈ q.requires := by
  intro allParts worklist
  induction allParts, worklist using expand.induct with
  | case1 a =>
    refine ⟨[], ?_, ?_⟩
    · rw [expand, List.append_nil]
    · intro p hp
      exact absurd hp (List.not_mem_nil p)
  | case2 a part rest res ih =>
    obtain ⟨new, h1, h2, h3⟩ := addRequired_full part.requires a []
    simp only [List.nil_append] at h2
    have ih2 : ∃ s : List Part,
        expand (addRequired a [] part.requires).1 (rest ++ (addRequired a [] part.requires).2) =
          (addRequired a [] part.requires).1 ++ s ∧
        ∀ p ∈ s, p = autoPart p.name ∧
          isPresent (addRequired a [] part.requires).1 p.name = false ∧
          ∃ q ∈ rest ++ (addRequired a [] part.requires).2, p.name ∈ q.requires := ih
    obtain ⟨s, hs1, hs2⟩ := ih2
    refine ⟨new ++ s, ?_, ?_⟩
    · show expand a (part :: rest) = a ++ (new ++ s)
      rw [expand]
      rw [hs1, h1, List.append_assoc]
    · intro p hp
      rcases List.mem_append.1 hp with hp | hp
      · obtain ⟨hauto, hpres, hmem⟩ := h3 p hp
        exact ⟨hauto, hpres, part, List.mem_cons_self _ _, hmem⟩
      · obtain ⟨hauto, hpres, q, hq, hqr⟩ := hs2 p hp
        rw [h1, isPresent_append] at hpres
        refine ⟨hauto, by simpa using (Bool.or_eq_false_iff.1 hpres).1, ?_⟩
        rw [h2] at hq
        rcases List.mem_append.1 hq with hq | hq
        · exact ⟨q, List.mem_cons_of_mem _ hq, hqr⟩
        · have : q = autoPart q.name := (h3 q hq).1
          rw [this] at hqr
          exact absurd hqr (List.not_mem_nil _)

theorem addRequired_present (rs : List String) : ∀ allParts newAcc r, r ∈ rs →
    isPresent (addRequired allParts newAcc rs).1 r = true := by
  induction rs with
  | nil =>
    intro _ _ r hr
    exact absurd hr (List.not_mem_nil r)
  | cons r' rs ih =>
    intro allParts newAcc r hr
    by_cases h : isPresent allParts r' = true
    · have hstep : addRequired allParts newAcc (r' :: rs) = addRequired allParts newAcc rs := by
        simp [addRequired, h]
      rw [hstep]
      rcases List.mem_cons.1 hr with hr | hr
      · subst hr
        obtain ⟨new, h1, -, -⟩ := addRequired_full rs allParts newAcc
        rw [h1, isPresent_append, h]
        rfl
      · exact ih allParts newAcc r hr
    · have hstep : addRequired allParts newAcc (r' :: rs) =
          addRequired (allParts ++ [autoPart r']) (newAcc ++ [autoPart r']) rs := by
        simp [addRequired, h]
      rw [hstep]
      rcases List.mem_cons.1 hr with hr | hr
      · subst hr
        obtain ⟨new, h1, -, -⟩ :=
          addRequired_full rs (allParts ++ [autoPart r]) (newAcc ++ [autoPart r])
        rw [h1, isPresent_append, isPresent_append]
        have : isPresent [autoPart r] r = true :=
          isPresent_iff.2 ⟨autoPart r, List.mem_singleton.2 rfl, rfl⟩
        rw [this]
        simp
      · exact ih _ _ r hr

theorem expand_present : ∀ (allParts worklist : List Part) (part : Part) (f : String),
    part ∈ worklist → f ∈ part.requires → isPresent (expand allParts worklist) f = true := by
  intro allParts worklist
  induction allParts, worklist using expand.induct with
  | case1 a =>
    intro part f hmem
    exact absurd hmem (List.not_mem_nil part)
  | case2 a part' rest res ih =>
    intro part f hmem hf
    have ih2 : ∀ (part : Part) (f : String),
        part ∈ rest ++ (addRequired a [] part'.requires).2 → f ∈ part.requires →
        isPresent (expand (addRequired a [] part'.requires).1
          (rest ++ (addRequired a [] part'.requires).2)) f = true := ih
    have hrw : expand a (part' :: rest) =
        expand (addRequired a [] part'.requires).1
          (rest ++ (addRequired a [] part'.requires).2) := by
      rw [expand]
    rw [hrw]
    obtain ⟨s, hs1, -⟩ :=
      expand_spec (addRequired a [] part'.requires).1
        (rest ++ (addRequired a [] part'.requires).2)
    rcases List.mem_cons.1 hmem with hm | hm
    · subst hm
      have hpres := addRequired_present part.requires a [] f hf
      rw [hs1, isPresent_append, hpres]
      rfl
    · exact ih2 part f (List.mem_append_left _ hm) hf

/-- C4: a part declaring `requires: ["foo"]` when no declared part is named
`foo` makes the dependency-closure phase load a part named `foo`, with plugin
name `foo` and empty properties, into `all_parts`. -/
theorem required_part_autoloaded (input : List InputPart) (ip : InputPart) (f : String)
    (h1 : ip ∈ input) (h2 : f ∈ ip.requires) (h3 : ∀ jp ∈ input, jp.name ≠ f) :
    autoPart f ∈ expand (loadDeclared input) (loadDeclared input) := by
  have hdmem : declaredPart ip ∈ loadDeclared input := List.mem_map_of_mem declaredPart h1
  have hreq : f ∈ (declaredPart ip).requires := h2
  have hpres :=
    expand_present (loadDeclared input) (loadDeclared input) (declaredPart ip) f hdmem hreq
  obtain ⟨p, hp, hpname⟩ := isPresent_iff.1 hpres
  obtain ⟨s, hs1, hs2⟩ := expand_spec (loadDeclared input) (loadDeclared input)
  rw [hs1] at hp
  rcases List.mem_append.1 hp with hp | hp
  · obtain ⟨jp, hjp, hjpe⟩ := List.mem_map.1 hp
    have : jp.name = f := by rw [← hpname, ← hjpe]; rfl
    exact absurd this (h3 jp hjp)
  · have hpauto := (hs2 p hp).1
    rw [hpname] at hpauto
    rw [← hpauto]
    rw [hs1]
    exact List.mem_append_right _ hp

/-- Witness for C4 on `inAuto`. -/
theorem required_part_autoloaded_witness :
    autoPart ("foo") ∈ expand (loadDeclared inAuto) (loadDeclared inAuto) :=
  required_part_autoloaded inAuto
    { name := "x", plugin := none, after := [], requires := ["foo"], other := [] } ("foo")
    (by decide) (by decide) (by decide)

/-! Facts about edge attachment. -/

theorem getAfter_afterRequests : ∀ (input : List InputPart) (ip : InputPart),
    (input.map InputPart.name).Nodup → ip ∈ input →
    getAfter (afterRequests input) ip.name = ip.after := by
  intro input
  induction input with
  | nil =>
    intro ip _ hmem
    exact absurd hmem (List.not_mem_nil ip)
  | cons jp rest ih =>
    intro ip hnodup hmem
    rcases List.mem_cons.1 hmem with hmem | hmem
    · subst hmem
      simp [getAfter, afterRequests]
    · have hne : jp.name ≠ ip.name := by
        intro he
        have : ip.name ∈ rest.map InputPart.name := List.mem_map_of_mem InputPart.name hmem
        rw [← he] at this
        exact (List.nodup_cons.1 (by simpa [List.map_cons] using hnodup)).1 this
      have hskip : getAfter (afterRequests (jp :: rest)) ip.name =
          getAfter (afterRequests rest) ip.name := by
        simp only [afterRequests, List.map_cons, getAfter, List.find?]
        rw [show (jp.name == ip.name) = false from beq_eq_false_iff_ne.2 hne]
      rw [hskip]
      exact ih ip (List.nodup_cons.1 (by simpa [List.map_cons] using hnodup)).2 hmem

theorem findByName_none {allParts : List Part} {f : String}
    (h : isPresent allParts f = false) : findByName allParts f = none := by
  apply List.find?_eq_none.2
  intro p hp hc
  have : isPresent allParts f = true := List.any_eq_true.2 ⟨p, hp, hc⟩
  rw [h] at this
  exact Bool.false_ne_true this

theorem resolveDeps_none {allParts : List Part} {f : String} :
    ∀ ds : List String, f ∈ ds → findByName allParts f = none →
      resolveDeps allParts ds = none := by
  intro ds
  induction ds with
  | nil =>
    intro hmem
    exact absurd hmem (List.not_mem_nil f)
  | cons d ds ih =>
    intro hmem hnone
    rcases List.mem_cons.1 hmem with hmem | hmem
    · subst hmem
      rw [resolveDeps, hnone]
    · rw [resolveDeps]
      cases hfd : findByName allParts d with
      | none => rfl
      | some p =>
        simp only
        rw [ih hmem hnone]

theorem attachDeps_none {allParts : List Part} {ar : List (String × List String)} {part : Part} :
    ∀ l : List Part, part ∈ l →
      resolveDeps allParts (part.requires ++ getAfter ar part.name) = none →
      attachDeps allParts ar l = none := by
  intro l
  induction l with
  | nil =>
    intro hmem
    exact absurd hmem (List.not_mem_nil part)
  | cons q rest ih =>
    intro hmem hres
    rcases List.mem_cons.1 hmem with hmem | hmem
    · subst hmem
      rw [attachDeps, hres]
    · rw [attachDeps]
      cases hq : resolveDeps allParts (q.requires ++ getAfter ar q.name) with
      | none => rfl
      | some ds =>
        simp only
        rw [ih hmem hres]

theorem resolveDeps_some {allParts : List Part} :
    ∀ {ds ds' : List String}, resolveDeps allParts ds = some ds' → ds' = ds := by
  intro ds
  induction ds with
  | nil =>
    intro ds' h
    rw [resolveDeps] at h
    cases h
    rfl
  | cons d rest ih =>
    intro ds' h
    rw [resolveDeps] at h
    cases hfd : findByName allParts d with
    | none => rw [hfd] at h; cases h
    | some p =>
      rw [hfd] at h
      cases hrec : resolveDeps allParts rest with
      | none => rw [hrec] at h; cases h
      | some tail =>
        rw [hrec] at h
        have hpn : p.name = d := by
          have hps := List.find?_some hfd
          have hmem : d ∈ names p := List.elem_iff.1 hps
          have hd : d = p.name := by simpa [names] using hmem
          exact hd.symm
        have htail := ih hrec
        cases h
        rw [hpn, htail]

/-- C3 (amended): edge attachment resolves, for every part, exactly the
concatenation `requires ++ after` in order — the `requires` entries first —
with no deduplication: a name occurring in both lists is appended to `deps`
twice. -/
theorem attachDeps_concat (allParts : List Part) (ar : List (String × List String)) :
    ∀ (l l' : List Part), attachDeps allParts ar l = some l' →
      l' = l.map (fun p => { p with deps := p.requires ++ getAfter ar p.name }) := by
  intro l
  induction l with
  | nil =>
    intro l' h
    rw [attachDeps] at h
    cases h
    rfl
  | cons part rest ih =>
    intro l' h
    rw [attachDeps] at h
    cases hres : resolveDeps allParts (part.requires ++ getAfter ar part.name) with
    | none => rw [hres] at h; cases h
    | some ds =>
      rw [hres] at h
      cases hrec : attachDeps allParts ar rest with
      | none => rw [hrec] at h; cases h
      | some others =>
        rw [hrec] at h
        cases h
        rw [List.map_cons, ← ih others hrec, resolveDeps_some hres]

/-- Witness for the amended C3 on `inReqAfter`: part `a` ends with
`deps = ["b", "b"]`. -/
theorem attachDeps_concat_witness :
    [raPA, raPB] = (loadDeclared inReqAfter).map
      (fun p => { p with deps := p.requires ++ getAfter (afterRequests inReqAfter) p.name }) :=
  attachDeps_concat (loadDeclared inReqAfter) (afterRequests inReqAfter)
    (loadDeclared inReqAfter) [raPA, raPB] (by decide)

/-- C3 counterexample: on `inReqAfter` (part `a` with `requires: ["b"]` and
`after: ["b"]`) the constructed `Config` holds part `a` with `b` twice in its
`deps` — the dependency name list is not deduplicated. -/
theorem attachDeps_no_dedup_counterexample :
    buildConfig inReqAfter = .ok [raPB, raPA] ∧ raPA.deps.count ("b") = 2 := by
  have hexp : expand (loadDeclared inReqAfter) (loadDeclared inReqAfter) =
      loadDeclared inReqAfter := by
    simp [expand, addRequired, isPresent, names, loadDeclared, declaredPart, inReqAfter]
  refine ⟨?_, by decide⟩
  simp only [buildConfig, hexp]
  decide

/-- C5: a name reachable only through `after` lists is never auto-loaded —
the closure loop reads only `requires`.  A part is added by the closure
phase exactly when some loaded part requires its name and no declared part
carries it; an `after`-only name with no matching part makes construction
exit (unresolved dependency) rather than load the part. -/
theorem after_only_never_autoloads (input : List InputPart) (f : String)
    (hnodup : (input.map InputPart.name).Nodup) :
    (∃ s, expand (loadDeclared input) (loadDeclared input) = loadDeclared input ++ s ∧
      ((∃ p ∈ s, p.name = f) ↔
        (isPresent (loadDeclared input) f = false ∧
          ∃ q ∈ loadDeclared input, f ∈ q.requires))) ∧
    ((∃ ip ∈ input, f ∈ ip.after) → isPresent (loadDeclared input) f = false →
      (∀ q ∈ loadDeclared input, f ∉ q.requires) →
      buildConfig input = .unresolvedDep) := by
  obtain ⟨s, hs1, hs2⟩ := expand_spec (loadDeclared input) (loadDeclared input)
  constructor
  · refine ⟨s, hs1, ?_, ?_⟩
    · rintro ⟨p, hp, hpname⟩
      obtain ⟨-, hpres, q, hq, hqr⟩ := hs2 p hp
      exact ⟨hpname ▸ hpres, q, hq, hpname ▸ hqr⟩
    · rintro ⟨hpres, q, hq, hqr⟩
      have hfull := expand_present (loadDeclared input) (loadDeclared input) q f hq hqr
      rw [hs1, isPresent_append, hpres] at hfull
      obtain ⟨p, hp, hpn⟩ := isPresent_iff.1 (by simpa using hfull)
      exact ⟨p, hp, hpn⟩
  · rintro ⟨ip, hip, hf⟩ hpres hreq
    have hnotin : isPresent (expand (loadDeclared input) (loadDeclared input)) f = false := by
      rw [hs1, isPresent_append, hpres]
      cases hsf : isPresent s f with
      | false => rfl
      | true =>
        obtain ⟨p, hp, hpn⟩ := isPresent_iff.1 hsf
        obtain ⟨-, -, q, hq, hqr⟩ := hs2 p hp
        exact absurd (hpn ▸ hqr) (hreq q hq)
    have hga : getAfter (afterRequests input) (declaredPart ip).name = ip.after :=
      getAfter_afterRequests input ip hnodup hip
    have hmem : declaredPart ip ∈ expand (loadDeclared input) (loadDeclared input) := by
      rw [hs1]
      exact List.mem_append_left _ (List.mem_map_of_mem declaredPart hip)
    have hres : resolveDeps (expand (loadDeclared input) (loadDeclared input))
        ((declaredPart ip).requires ++
          getAfter (afterRequests input) (declaredPart ip).name) = none := by
      apply resolveDeps_none _ _ (findByName_none hnotin)
      rw [hga]
      exact List.mem_append_right _ hf
    have hat := attachDeps_none _ hmem hres
    simp only [buildConfig, hat]

/-- Witness for C5 on `inAfterOnly`: the `after`-only name `b` aborts
construction as an unresolved dependency. -/
theorem after_only_never_autoloads_witness : buildConfig inAfterOnly = .unresolvedDep :=
  (after_only_never_autoloads inAfterOnly ("b") (by decide)).2
    ⟨{ name := "a", plugin := none, after := ["b"], requires := [], other := [] },
      by decide, by decide⟩
    (by decide) (by decide)

/-! Facts about environment composition. -/

/-- C7: `Config.runtime_env(root)` with architecture triplet
`x86_64-linux-gnu` returns exactly the `PATH` assignment followed by the
`LD_LIBRARY_PATH` assignment shown, for every root. -/
theorem runtime_env_exact (root : String) :
    runtime_env root ("x86_64-linux-gnu") =
      ["PATH=\"" ++ root ++ "/bin:" ++ root ++ "/usr/bin:$PATH\"",
       "LD_LIBRARY_PATH=\"" ++ root ++ "/lib:" ++ root ++ "/usr/lib:" ++ root ++
         "/lib/x86_64-linux-gnu:" ++ root ++ "/usr/lib/x86_64-linux-gnu:$LD_LIBRARY_PATH\""] := by
  simp [runtime_env, String.append_assoc]

/-- C6: `Config.build_env_for_part` does not deduplicate shared transitive
dependencies: on the diamond `p → {a, b} → c`, the environment contribution
of `c` (its runtime env, build env and own env) is emitted twice, once inside
each direct dependency's recursive expansion — for any architecture triplet,
install-directory assignment and per-part env collaborator. -/
theorem build_env_for_part_diamond (installDirOf : String → String)
    (envOf : String → String → List String) (arch : String) :
    build_env_for_part diamond installDirOf envOf arch 3 diaP =
      (runtime_env (installDirOf ("a")) arch ++ build_env (installDirOf ("a")) arch ++
        envOf ("a") (installDirOf ("a")) ++
        (runtime_env (installDirOf ("c")) arch ++ build_env (installDirOf ("c")) arch ++
          envOf ("c") (installDirOf ("c")))) ++
      (runtime_env (installDirOf ("b")) arch ++ build_env (installDirOf ("b")) arch ++
        envOf ("b") (installDirOf ("b")) ++
        (runtime_env (installDirOf ("c")) arch ++ build_env (installDirOf ("c")) arch ++
          envOf ("c") (installDirOf ("c")))) := by
  have ha : findByName diamond ("a") = some diaA := by decide
  have hb : findByName diamond ("b") = some diaB := by decide
  have hc : findByName diamond ("c") = some diaC := by decide
  have hpd : diaP.deps = ["a", "b"] := by decide
  have had : diaA.deps = ["c"] := by decide
  have hbd : diaB.deps = ["c"] := by decide
  have hcd : diaC.deps = [] := by decide
  have hna : diaA.name = "a" := rfl
  have hnb : diaB.name = "b" := rfl
  have hnc : diaC.name = "c" := rfl
  simp [build_env_for_part, hpd, had, hbd, hcd, ha, hb, hc, hna, hnb, hnc, List.append_assoc]

end Snapcraft
